import Mathlib

/-!
MD-to-PDF content script: URL classification, raw-URL rewriting and the scan engine.

A shallow embedding of `src/content.js`.  JavaScript strings are Lean `String`s, the
string methods the script calls are small structural functions on the character list,
`null` is `none`, and a thrown exception is the `thrown` constructor of `Js`.

The platform services the script calls but does not define (the WHATWG `URL` parser,
`location.origin`) are collected in `Platform` and taken as a parameter: the results hold
for whatever the browser's parser answers.
-/

namespace MdToPdf

/-! ## JavaScript string methods -/

/-- The method `s.toLowerCase()`.  The script lower-cases URL path names, which the URL serialiser
keeps inside ASCII, and a header value that it then searches for ASCII words only; the
ASCII mapping decides every comparison it makes on the result. -/
def toLowerCase (s : String) : String := ⟨s.data.map Char.toLower⟩

/-- The method `s.endsWith(suffix)`. -/
def endsWith (s suffix : String) : Bool := suffix.data.isSuffixOf s.data

/-- The method `s.startsWith(pre)`. -/
def startsWith (s pre : String) : Bool := pre.data.isPrefixOf s.data

/-- Whether `sub` occurs in the character list at some position. -/
def includesChars (sub : List Char) : List Char → Bool
  | [] => sub.isEmpty
  | c :: cs => sub.isPrefixOf (c :: cs) || includesChars sub cs

/-- The method `s.includes(sub)`; also `/sub/.test(s)` for a pattern without operators. -/
def includes (s sub : String) : Bool := includesChars sub.data s.data

/-- Splitting a character list at every occurrence of `sep`; the empty list gives one
empty piece, as `"".split("/")` gives `[""]`. -/
def splitChars (sep : Char) : List Char → List (List Char)
  | [] => [[]]
  | c :: cs =>
    if c = sep then [] :: splitChars sep cs
    else
      match splitChars sep cs with
      | [] => [[c]]
      | seg :: segs => (c :: seg) :: segs

/-- The method `s.split(sep)` for a one-character separator. -/
def split (s : String) (sep : Char) : List String := (splitChars sep s.data).map String.mk

/-- The method `parts.join(sep)`. -/
def join : List String → String → String
  | [], _ => ""
  | [p], _ => p
  | p :: q :: rest, sep => p ++ sep ++ join (q :: rest) sep

/-- Reading `parts[i]` inside a template literal: an index past the end reads `undefined`,
which a template literal prints as the word. -/
def item (parts : List String) (i : Nat) : String := (parts[i]?).getD "undefined"

/-- The call `href.replace(/^http:/, "https:")`. -/
def upgradeScheme (href : String) : String :=
  if startsWith href "http:" then "https:" ++ ⟨href.data.drop 5⟩ else href

/-! ## Platform -/

/-- The result of a JavaScript call that may throw. -/
inductive Js (α : Type) where
  | ret (a : α)
  | thrown
  deriving DecidableEq, Repr

/-- The fields of a parsed `URL` object that the script reads. -/
structure URL where
  /-- The field `url.protocol`, colon included. -/
  protocol : String
  /-- The field `url.hostname`. -/
  hostname : String
  /-- The field `url.pathname`. -/
  pathname : String
  /-- The pairs of `url.searchParams`, decoded, in order. -/
  searchParams : List (String × String)
  /-- The serialisation `url.toString()`. -/
  href : String
  deriving DecidableEq, Repr

/-- The call `url.searchParams.get(name)`: the first value stored under `name`, else `null`. -/
def URL.searchParamsGet (url : URL) (name : String) : Option String :=
  (url.searchParams.find? (fun kv => kv.1 = name)).map Prod.snd

/-- The browser services the content script relies on. -/
structure Platform where
  /-- The constructor `new URL(s)`; `none` stands for the `TypeError` it throws on an unparsable string. -/
  parseURL : String → Option URL
  /-- The constructor `new URL(s, base)`; `none` stands for the `TypeError`. -/
  parseURLWithBase : String → String → Option URL
  /-- The value of `location.origin`. -/
  origin : String

/-! ## URLClassifier -/

/-- The function `isMarkdownUrl(href)` (content.js, lines 4-29). -/
def isMarkdownUrl (P : Platform) (href : String) : Bool :=
  match P.parseURL href with
  | none => false
  | some url =>
    let path := toLowerCase url.pathname
    if endsWith path ".md" then true
    else if url.hostname = "github.com" ∧ includes path "/blob/" ∧ endsWith path ".md" then true
    else if url.hostname = "raw.githubusercontent.com" ∧ endsWith path ".md" then true
    else false

/-- The value of `url.pathname.split("/").filter(Boolean)`: the non-empty path segments. -/
def pathParts (url : URL) : List String := (split url.pathname '/').filter (fun p => p ≠ "")

/-- The function `githubRawUrl(url)` (content.js, lines 40-75).  `ret none` is the `null` result. -/
def githubRawUrl (url : URL) : Js (Option String) :=
  let parts := pathParts url
  if parts.length < 2 then .ret none
  else
    let owner := item parts 0
    let repo := item parts 1
    if parts.length = 2 then
      .ret (some ("https://raw.githubusercontent.com/" ++ owner ++ "/" ++ repo ++ "/HEAD/README.md"))
    else if parts[2]? = some "blob" ∧ parts.length ≥ 5 then
      let branch := item parts 3
      let filePath := join (parts.drop 4) "/"
      .ret (some ("https://raw.githubusercontent.com/" ++ owner ++ "/" ++ repo ++ "/" ++ branch
        ++ "/" ++ filePath))
    else if parts[2]? = some "tree" ∧ parts.length ≥ 4 then
      let branch := item parts 3
      let filePath :=
        if parts.length > 4 then join (parts.drop 4) "/" ++ "/README.md" else "README.md"
      .ret (some ("https://raw.githubusercontent.com/" ++ owner ++ "/" ++ repo ++ "/" ++ branch
        ++ "/" ++ filePath))
    else
      match parts[parts.length - 1]? with
      | none => .thrown
      | some last =>
        if endsWith (toLowerCase last) ".md" then
          let filePath := join (parts.drop 2) "/"
          .ret (some ("https://raw.githubusercontent.com/" ++ owner ++ "/" ++ repo ++ "/HEAD/"
            ++ filePath))
        else .ret none

/-- The function `toRawMarkdownUrl(href)` (content.js, lines 77-88).  `if (raw)` is false for `null`
and for the empty string; every exception inside the `try` ends in `return href`. -/
def toRawMarkdownUrl (P : Platform) (href : String) : String :=
  match P.parseURL href with
  | none => href
  | some url =>
    if url.hostname = "github.com" then
      match githubRawUrl url with
      | .ret (some raw) => if raw ≠ "" then raw else href
      | .ret none => href
      | .thrown => href
    else href

/-! ## LinkResolver -/

/-- The function `resolveTargetHref(rawHref)` (content.js, lines 90-118).  The two-argument `new URL`
stands before the `try`, so its `TypeError` leaves the function (`thrown`). -/
def resolveTargetHref (P : Platform) (rawHref : String) : Js (Option String) :=
  if rawHref = "" then .ret none
  else
    let resolved : Js String :=
      if startsWith rawHref "/" then
        match P.parseURLWithBase rawHref P.origin with
        | none => .thrown
        | some u => .ret u.href
      else .ret rawHref
    match resolved with
    | .thrown => .thrown
    | .ret href =>
      match P.parseURL href with
      | none => .ret none
      | some url =>
        let isGoogleRedirect := includes url.hostname ".google." && decide (url.pathname = "/url")
        let href1 :=
          if isGoogleRedirect then
            let q := (url.searchParamsGet "q").filter (fun v => v ≠ "")
            let realHref := q.orElse (fun _ => url.searchParamsGet "url")
            match realHref with
            | some r => if r ≠ "" then r else href
            | none => href
          else href
        .ret (some (upgradeScheme href1))

/-- The first step of `resolveTargetHref` (content.js, lines 93-97): the string handed to
the `try`, or the `TypeError` of the two-argument `new URL`. -/
def absoluteHref (P : Platform) (rawHref : String) : Js String :=
  if startsWith rawHref "/" then
    match P.parseURLWithBase rawHref P.origin with
    | none => .thrown
    | some u => .ret u.href
  else .ret rawHref

/-- The test `isGoogleRedirect` (content.js, lines 102-103). -/
def isGoogleRedirect (url : URL) : Bool :=
  includes url.hostname ".google." && decide (url.pathname = "/url")

/-- The value of `realHref` when it is truthy (content.js, lines 106-107): parameter `q` if
it is present and not empty, else parameter `url` if it is present and not empty. -/
def redirectTarget (url : URL) : Option String :=
  match (url.searchParamsGet "q").filter (fun v => v ≠ "") with
  | some q => some q
  | none => (url.searchParamsGet "url").filter (fun v => v ≠ "")

/-! ## VerificationProbe -/

/-- What the script reads of the response to the `HEAD` request. -/
structure Response where
  /-- The field `res.ok`: a status in the range 200-299. -/
  ok : Bool
  /-- The value `res.headers.get("content-type")`, `none` for `null`. -/
  contentType : Option String
  deriving DecidableEq, Repr

/-- The function `isRealMarkdownByHead(url)` (content.js, lines 163-177), as a function of what `fetch`
settles with: `none` is a rejected (or throwing) `fetch`, which the `catch` turns into
`false`. -/
def isRealMarkdownByHead (res : Option Response) : Bool :=
  match res with
  | none => false
  | some res =>
    if !res.ok then false
    else
      let ct := toLowerCase (res.contentType.getD "")
      includes ct "text/markdown" || includes ct "text/plain" ||
        includes ct "application/octet-stream"

/-! ## ScanEngine

The part of the DOM the scan reads and writes.  Result containers are taken as disjoint
and are numbered in document order. -/

/-- An `a[href]` element of a result container. -/
structure Anchor where
  /-- The attribute `href`, as `getAttribute` returns it. -/
  href : String
  /-- Whether `dataset.md2pdfChecked` is `"1"`. -/
  checked : Bool
  deriving DecidableEq, Repr

/-- Where an affordance was inserted. -/
inductive Slot where
  /-- At the end of the snippet element. -/
  | snippet
  /-- Right after the anchor of the given index. -/
  | afterAnchor (i : Nat)
  deriving DecidableEq, Repr

/-- An affordance: a `span` with `data-md2pdf-button="1"`, made by `createIcon`. -/
structure Icon where
  /-- The URL the click handler opens. -/
  markdownUrl : String
  /-- The place of insertion. -/
  slot : Slot
  deriving DecidableEq, Repr

/-- A result container (`div.MjjYud` or `div.g`). -/
structure Block where
  /-- Its `a[href]` descendants, in document order. -/
  anchors : List Anchor
  /-- Whether it has a `div.VwiC3b`, `div[data-sncf]` or `span.aCOpRe` descendant. -/
  hasSnippet : Bool
  /-- Its descendants with `data-md2pdf-button="1"`. -/
  icons : List Icon
  deriving DecidableEq, Repr

/-- A verification started by a scan whose promise has not settled yet, with what its
`then` callback closes over. -/
structure Probe where
  /-- The container `block`. -/
  block : Nat
  /-- The index of `targetAnchor` among the container's anchors. -/
  anchor : Nat
  /-- The value `normalizedHref`. -/
  url : String
  deriving DecidableEq, Repr

/-- The page: its result containers and the verifications in flight. -/
structure Page where
  /-- The result containers, in document order. -/
  blocks : List Block
  /-- The verifications in flight, oldest first. -/
  pending : List Probe
  deriving DecidableEq, Repr

/-- How the loop over a container's anchors ends. -/
inductive Found where
  /-- It left through `break` with `targetAnchor` (by index) and `targetHref`. -/
  | target (i : Nat) (href : String)
  /-- It ran to the end of the list. -/
  | nothing
  /-- The call of `resolveTargetHref` threw. -/
  | threw
  deriving DecidableEq, Repr

/-- The loop `for (const a of anchors)` (content.js, lines 191-201), from the anchor of
index `i` on: the anchors as the loop leaves them, and how it ends. -/
def scanAnchors (P : Platform) : Nat → List Anchor → List Anchor × Found
  | _, [] => ([], .nothing)
  | i, a :: rest =>
    match resolveTargetHref P a.href with
    | .thrown => (a :: rest, .threw)
    | .ret resolved =>
      let a1 : Anchor := { a with checked := true }
      match resolved with
      | none => (a1 :: (scanAnchors P (i + 1) rest).1, (scanAnchors P (i + 1) rest).2)
      | some r =>
        if r = "" ∨ startsWith r "http" = false then
          (a1 :: (scanAnchors P (i + 1) rest).1, (scanAnchors P (i + 1) rest).2)
        else if isMarkdownUrl P r = false then
          (a1 :: (scanAnchors P (i + 1) rest).1, (scanAnchors P (i + 1) rest).2)
        else (a1 :: rest, .target i r)

/-- What one run of the loop over the containers leaves behind. -/
structure ScanResult where
  /-- The containers as the loop leaves them. -/
  blocks : List Block
  /-- The verifications it started, in order. -/
  started : List Probe
  /-- Whether an exception ended it. -/
  threw : Bool
  deriving DecidableEq, Repr

/-- Putting a container in front of the result for the containers after it. -/
def ScanResult.cons (b : Block) (started : List Probe) (r : ScanResult) : ScanResult :=
  { blocks := b :: r.blocks, started := started ++ r.started, threw := r.threw }

/-- The loop `for (const block of resultBlocks)` (content.js, lines 183-223), from the
container of index `i` on.  `root i` tells whether container `i` lies under the scanned
node, that is, whether `querySelectorAll` lists it. -/
def scanBlocks (P : Platform) (root : Nat → Bool) : Nat → List Block → ScanResult
  | _, [] => { blocks := [], started := [], threw := false }
  | i, b :: rest =>
    if root i = false then (scanBlocks P root (i + 1) rest).cons b []
    else if b.icons ≠ [] then (scanBlocks P root (i + 1) rest).cons b []
    else
      match scanAnchors P 0 b.anchors with
      | (anchors, .threw) =>
        { blocks := { b with anchors := anchors } :: rest, started := [], threw := true }
      | (anchors, .nothing) =>
        (scanBlocks P root (i + 1) rest).cons { b with anchors := anchors } []
      | (anchors, .target k href) =>
        if href = "" then (scanBlocks P root (i + 1) rest).cons { b with anchors := anchors } []
        else
          (scanBlocks P root (i + 1) rest).cons { b with anchors := anchors }
            [{ block := i, anchor := k, url := toRawMarkdownUrl P href }]

/-- The function `injectButtons(root)` (content.js, lines 180-224), up to the point where it returns or
an exception leaves it: the page it leaves, and whether it threw. -/
def injectButtons (P : Platform) (root : Nat → Bool) (pg : Page) : Page × Bool :=
  let r := scanBlocks P root 0 pg.blocks
  ({ blocks := r.blocks, pending := pg.pending ++ r.started }, r.threw)

/-- The insertion at the end of the `then` callback (content.js, lines 210-221). -/
def insertIcon (pr : Probe) (b : Block) : Block :=
  { b with icons := b.icons ++
      [{ markdownUrl := pr.url, slot := if b.hasSnippet then .snippet else .afterAnchor pr.anchor }] }

/-- Applying `f` to the container of index `i`. -/
def updateBlock (f : Block → Block) : Nat → List Block → List Block
  | _, [] => []
  | 0, b :: rest => f b :: rest
  | i + 1, b :: rest => b :: updateBlock f i rest

/-- The `then` callback of the verification of index `k` among those in flight
(content.js, lines 207-222), run when `fetch` has settled with `res`. -/
def probeSettled (k : Nat) (res : Option Response) (pg : Page) : Page :=
  match pg.pending[k]? with
  | none => pg
  | some pr =>
    if isRealMarkdownByHead res = false then { pg with pending := pg.pending.eraseIdx k }
    else
      { blocks := updateBlock (insertIcon pr) pr.block pg.blocks,
        pending := pg.pending.eraseIdx k }

/-- The callback of the `MutationObserver` (content.js, lines 228-236) on the added element
nodes of a batch: one scan per node, until one throws. -/
def mo (P : Platform) : List (Nat → Bool) → Page → Page
  | [], pg => pg
  | node :: rest, pg =>
    match injectButtons P node pg with
    | (pg1, true) => pg1
    | (pg1, false) => mo P rest pg1

/-- What the event loop runs next. -/
inductive Event where
  /-- A call `injectButtons(root)`. -/
  | scan (root : Nat → Bool)
  /-- A batch of mutation records with the given added element nodes. -/
  | mutations (added : List (Nat → Bool))
  /-- The verification of index `k` settles with `res`. -/
  | settle (k : Nat) (res : Option Response)

/-- One turn of the event loop. -/
def step (P : Platform) (pg : Page) : Event → Page
  | .scan root => (injectButtons P root pg).1
  | .mutations added => mo P added pg
  | .settle k res => probeSettled k res pg

/-- A sequence of turns. -/
def run (P : Platform) (pg : Page) (events : List Event) : Page :=
  events.foldl (step P) pg

/-- The whole document as a scan root. -/
def document : Nat → Bool := fun _ => true

/-- The number of affordances attached to the container of index `i`. -/
def iconCount (pg : Page) (i : Nat) : Nat :=
  match pg.blocks[i]? with
  | some b => b.icons.length
  | none => 0

/-! ## Path shapes named by the specification -/

/-- The prefix of every rewritten URL. -/
def rawHost : String := "https://raw.githubusercontent.com/"

/-- The blob shape: third segment `blob` and at least five segments. -/
def blobShape (parts : List String) : Bool :=
  decide (parts[2]? = some "blob") && decide (5 ≤ parts.length)

/-- The tree shape: third segment `tree` and at least four segments. -/
def treeShape (parts : List String) : Bool :=
  decide (parts[2]? = some "tree") && decide (4 ≤ parts.length)

/-- The `.md` shape: the last segment, lower-cased as the script does, ends in `.md`. -/
def mdShape (parts : List String) : Bool :=
  match parts.getLast? with
  | some last => endsWith (toLowerCase last) ".md"
  | none => false

/-- The paths on which `githubRawUrl` is said to answer `null`. -/
def nullShape (parts : List String) : Prop :=
  parts.length < 2 ∨
    (3 ≤ parts.length ∧ blobShape parts = false ∧ treeShape parts = false ∧
      mdShape parts = false)

/-! ## Notions named by the specification -/

/-- The one-rule classifier: the string parses and its lower-cased path ends in `.md`. -/
def isMarkdownUrlByPath (P : Platform) (href : String) : Bool :=
  match P.parseURL href with
  | none => false
  | some url => endsWith (toLowerCase url.pathname) ".md"

/-- Removing the blanks at both ends of a character list. -/
def trimBlanks (cs : List Char) : List Char :=
  ((cs.dropWhile (fun c => c = ' ')).reverse.dropWhile (fun c => c = ' ')).reverse

/-- The media type a `Content-Type` header value declares: the text before the first `;`,
without the blanks around it, lower-cased. -/
def mediaType (v : String) : String :=
  toLowerCase ⟨trimBlanks ((splitChars ';' v.data).headD [])⟩

/-- The three tests an anchor has to pass to be selected (content.js, lines 193-196): its
resolved reference when it is not `null`, begins with `http` and satisfies `isMarkdownUrl`. -/
def qualifies (P : Platform) (a : Anchor) : Option String :=
  match resolveTargetHref P a.href with
  | .ret (some r) =>
    if r ≠ "" ∧ startsWith r "http" = true ∧ isMarkdownUrl P r = true then some r else none
  | _ => none

/-- An anchor without its `dataset.md2pdfChecked` flag. -/
def Anchor.unmark (a : Anchor) : Anchor := { a with checked := false }

/-- A container whose anchors are taken without their `dataset.md2pdfChecked` flag. -/
def Block.unmark (b : Block) : Block := { b with anchors := b.anchors.map Anchor.unmark }

/-- The string `r` is `x` with a literal leading `http:` replaced by `https:` and every
other character unchanged; it is `x` itself when `x` does not begin with `http:`. -/
def schemeUpgraded (x r : String) : Prop :=
  (∀ rest, x = "http:" ++ rest → r = "https:" ++ rest) ∧
    ((¬ ∃ rest, x = "http:" ++ rest) → r = x)

/-! ## A sample platform

The parser's answers on a handful of concrete strings, for evaluating the script on
concrete inputs. -/

/-- What `new URL(s)` holds for a URL `scheme://host/path` without query or fragment. -/
def plainUrl (scheme host path : String) : URL :=
  ⟨scheme ++ ":", host, path, [], scheme ++ "://" ++ host ++ path⟩

/-- The strings the sample parser accepts, with their parsed form. -/
def samplePages : List (String × URL) :=
  [ ("https://example.com/docs/README.MD", plainUrl "https" "example.com" "/docs/README.MD"),
    ("https://github.com/acme/widgets/tree/main/docs/guide.md",
      plainUrl "https" "github.com" "/acme/widgets/tree/main/docs/guide.md"),
    ("https://github.com/acme/widgets/blob/main/docs/guide.md",
      plainUrl "https" "github.com" "/acme/widgets/blob/main/docs/guide.md"),
    ("https://github.com/acme/widgets/blob/guide.md",
      plainUrl "https" "github.com" "/acme/widgets/blob/guide.md"),
    ("https://github.com/README.md", plainUrl "https" "github.com" "/README.md"),
    ("httpx://example.com/a.md", plainUrl "httpx" "example.com" "/a.md"),
    ("http://example.com/a.md", plainUrl "http" "example.com" "/a.md"),
    ("https://example.com/a.md", plainUrl "https" "example.com" "/a.md"),
    ("https://example.com/index.html", plainUrl "https" "example.com" "/index.html"),
    ("https://raw.githubusercontent.com/acme/widgets/main/docs/guide.md",
      plainUrl "https" "raw.githubusercontent.com" "/acme/widgets/main/docs/guide.md"),
    ("https://www.google.com/url?q=https://example.com/a.md",
      ⟨"https:", "www.google.com", "/url", [("q", "https://example.com/a.md")],
        "https://www.google.com/url?q=https://example.com/a.md"⟩),
    ("https://www.google.com/url?q=hello",
      ⟨"https:", "www.google.com", "/url", [("q", "hello")],
        "https://www.google.com/url?q=hello"⟩),
    ("https://www.google.com/url?q=http://example.com/a.md",
      ⟨"https:", "www.google.com", "/url", [("q", "http://example.com/a.md")],
        "https://www.google.com/url?q=http://example.com/a.md"⟩),
    ("https://www.google.com/docs/a.md", plainUrl "https" "www.google.com" "/docs/a.md") ]

/-- A page with one result container holding one anchor and a snippet, nothing attached and
nothing in flight. -/
def samplePage : Page :=
  { blocks := [{ anchors := [{ href := "https://example.com/docs/README.MD", checked := false }],
                 hasSnippet := true, icons := [] }],
    pending := [] }

/-- A page with one result container whose only anchor points to an HTML page. -/
def htmlPage : Page :=
  { blocks := [{ anchors := [{ href := "https://example.com/index.html", checked := false }],
                 hasSnippet := true, icons := [] }],
    pending := [] }

/-- A successful `HEAD` response of type `text/plain`. -/
def plainTextResponse : Response := { ok := true, contentType := some "text/plain; charset=utf-8" }

/-- A `HEAD` response with a status outside the success range, such as 404. -/
def notFoundResponse : Response := { ok := false, contentType := some "text/html" }

/-- A platform on the origin `https://www.google.com` whose parser knows `samplePages`. -/
def samplePlatform : Platform where
  parseURL := fun s => samplePages.lookup s
  parseURLWithBase := fun s base => samplePages.lookup (base ++ s)
  origin := "https://www.google.com"

/-! ## String lemmas -/

theorem splitChars_no_sep (sep : Char) (s : List Char) (hs : sep ∉ s) :
    splitChars sep s = [s] := by
  induction s with
  | nil => rfl
  | cons c cs ih =>
    have hc : c ≠ sep := fun h => hs (by simp [h])
    have hcs : sep ∉ cs := fun h => hs (by simp [h])
    simp [splitChars, hc, ih hcs]

theorem splitChars_append (sep : Char) (s : List Char) (hs : sep ∉ s) (p : List Char) :
    ∃ init last, splitChars sep p = init ++ [last] ∧
      splitChars sep (p ++ s) = init ++ [last ++ s] := by
  induction p with
  | nil => exact ⟨[], [], rfl, by simpa using splitChars_no_sep sep s hs⟩
  | cons c p ih =>
    obtain ⟨init, last, h1, h2⟩ := ih
    by_cases hc : c = sep
    · exact ⟨[] :: init, last, by simp [splitChars, hc, h1], by simp [splitChars, hc, h2]⟩
    · cases init with
      | nil => exact ⟨[], c :: last, by simp [splitChars, hc, h1], by simp [splitChars, hc, h2]⟩
      | cons i0 init =>
        exact ⟨(c :: i0) :: init, last, by simp [splitChars, hc, h1],
          by simp [splitChars, hc, h2]⟩

theorem slash_not_mem_of_lower (s : List Char)
    (hs : s.map Char.toLower = ['.', 'm', 'd']) : '/' ∉ s := by
  intro hmem
  have : Char.toLower '/' ∈ s.map Char.toLower := List.mem_map_of_mem _ hmem
  rw [hs] at this
  revert this
  decide

theorem pathParts_getLast (url : URL) (p s : List Char) (hps : url.pathname.data = p ++ s)
    (hne : s ≠ []) (hs : '/' ∉ s) :
    ∃ last, (pathParts url).getLast? = some ⟨last ++ s⟩ := by
  obtain ⟨init, last, -, h2⟩ := splitChars_append '/' s hs p
  refine ⟨last, ?_⟩
  have hk : ((⟨last ++ s⟩ : String) ≠ "") := by
    intro h
    have := congrArg String.data h
    simp [hne] at this
  simp [pathParts, split, hps, h2, List.filter_append, hk]

theorem mdShape_of_pathname (url : URL)
    (h : endsWith (toLowerCase url.pathname) ".md" = true) : mdShape (pathParts url) = true := by
  unfold endsWith toLowerCase at h
  rw [List.isSuffixOf_iff_suffix] at h
  obtain ⟨t, ht⟩ := h
  have hd : (".md" : String).data = ['.', 'm', 'd'] := rfl
  rw [hd] at ht
  obtain ⟨p, s, hps, -, hs⟩ := List.append_eq_map_iff.mp ht
  have hne : s ≠ [] := by
    intro h0
    simp [h0] at hs
  obtain ⟨last, hl⟩ := pathParts_getLast url p s hps hne (slash_not_mem_of_lower s hs)
  unfold mdShape
  rw [hl]
  simp only [endsWith, toLowerCase, hd, List.map_append, hs]
  rw [List.isSuffixOf_iff_suffix]
  exact List.suffix_append _ _

/-! ## URL classification and rewriting: lemmas -/

theorem isMarkdownUrl_parsed (P : Platform) (href : String) (url : URL)
    (hp : P.parseURL href = some url) :
    isMarkdownUrl P href = endsWith (toLowerCase url.pathname) ".md" := by
  unfold isMarkdownUrl
  rw [hp]
  cases h : endsWith (toLowerCase url.pathname) ".md" <;> simp [h]

theorem rawHost_append_ne_empty (s : String) : rawHost ++ s ≠ "" := by
  intro h
  have hl := congrArg String.length h
  have h34 : rawHost.length = 34 := by decide
  rw [String.length_append, h34] at hl
  simp at hl

theorem startsWith_rawHost_append (s : String) : startsWith (rawHost ++ s) rawHost = true := by
  simp [startsWith]

theorem startsWith_http_rawHost_append (s : String) :
    startsWith (rawHost ++ s) "http" = true := by
  have h : ("http" : String).data <+: rawHost.data := by decide
  simpa [startsWith] using h.trans (List.prefix_append _ _)

theorem githubRawUrl_ret (url : URL) :
    githubRawUrl url = .ret none ∨ ∃ rest, githubRawUrl url = .ret (some (rawHost ++ rest)) := by
  unfold githubRawUrl
  simp only [rawHost, String.append_assoc]
  split_ifs with h1 h2 h3 h4
  · exact Or.inl rfl
  · exact Or.inr ⟨_, rfl⟩
  · exact Or.inr ⟨_, rfl⟩
  · exact Or.inr ⟨_, rfl⟩
  · exact Or.inr ⟨_, rfl⟩
  · rw [← List.getLast?_eq_getElem?]
    cases hl : (pathParts url).getLast? with
    | none =>
      rw [List.getLast?_eq_none_iff] at hl
      simp [hl] at h1
    | some last =>
      simp only
      split_ifs
      · exact Or.inr ⟨_, rfl⟩
      · exact Or.inl rfl

theorem githubRawUrl_null_iff_nullShape (url : URL) :
    githubRawUrl url = .ret none ↔ nullShape (pathParts url) := by
  unfold githubRawUrl nullShape blobShape treeShape mdShape
  dsimp only
  rw [← List.getLast?_eq_getElem?]
  cases hl : (pathParts url).getLast? with
  | none =>
    rw [List.getLast?_eq_none_iff] at hl
    simp [hl]
  | some last =>
    simp only
    split_ifs with h1 h2 h3 h4 h5 <;> simp_all
    omega

theorem githubRawUrl_of_md_pathname (url : URL)
    (hmd : endsWith (toLowerCase url.pathname) ".md" = true)
    (hlen : 2 ≤ (pathParts url).length) :
    ∃ rest, githubRawUrl url = .ret (some (rawHost ++ rest)) := by
  rcases githubRawUrl_ret url with h | h
  · rcases (githubRawUrl_null_iff_nullShape url).mp h with h2 | ⟨-, -, -, h3⟩
    · omega
    · rw [mdShape_of_pathname url hmd] at h3
      exact absurd h3 (by decide)
  · exact h

theorem toRawMarkdownUrl_cases (P : Platform) (href : String) :
    toRawMarkdownUrl P href = href ∨ ∃ rest, toRawMarkdownUrl P href = rawHost ++ rest := by
  unfold toRawMarkdownUrl
  cases hp : P.parseURL href with
  | none => exact Or.inl rfl
  | some url =>
    simp only
    split_ifs with hh
    · rcases githubRawUrl_ret url with h | ⟨rest, h⟩
      · rw [h]
        exact Or.inl rfl
      · rw [h]
        simp only [ne_eq, rawHost_append_ne_empty, not_false_eq_true, if_true]
        exact Or.inr ⟨rest, rfl⟩
    · exact Or.inl rfl

/-! ## URLClassifier: `isMarkdownUrl` -/

/-- C2: every string that parses as a URL whose path, lower-cased, ends in `.md` is
classified as a Markdown URL, whatever its host. -/
theorem isMarkdownUrl_md_path_any_host (P : Platform) (href : String) (url : URL)
    (hp : P.parseURL href = some url)
    (hmd : endsWith (toLowerCase url.pathname) ".md" = true) :
    isMarkdownUrl P href = true := by
  rw [isMarkdownUrl_parsed P href url hp, hmd]

/-- Witness for C2: an upper-case `.MD` path on a host that is not GitHub. -/
theorem isMarkdownUrl_md_path_any_host_witness :
    samplePlatform.parseURL "https://example.com/docs/README.MD"
        = some (plainUrl "https" "example.com" "/docs/README.MD") ∧
      endsWith (toLowerCase (plainUrl "https" "example.com" "/docs/README.MD").pathname) ".md"
        = true ∧
      isMarkdownUrl samplePlatform "https://example.com/docs/README.MD" = true :=
  ⟨by decide, by decide,
    isMarkdownUrl_md_path_any_host samplePlatform "https://example.com/docs/README.MD"
      (plainUrl "https" "example.com" "/docs/README.MD") (by decide) (by decide)⟩

/-- C3, counterexample: the `github.com` URL `.../tree/main/docs/guide.md` has `/tree/` and no
`/blob/` in its path and ends in `.md`, yet `isMarkdownUrl` answers `true`, not `false`. -/
theorem isMarkdownUrl_github_tree_not_false :
    samplePlatform.parseURL "https://github.com/acme/widgets/tree/main/docs/guide.md"
        = some (plainUrl "https" "github.com" "/acme/widgets/tree/main/docs/guide.md") ∧
      (plainUrl "https" "github.com" "/acme/widgets/tree/main/docs/guide.md").hostname
        = "github.com" ∧
      endsWith (plainUrl "https" "github.com" "/acme/widgets/tree/main/docs/guide.md").pathname
        ".md" = true ∧
      includes (plainUrl "https" "github.com" "/acme/widgets/tree/main/docs/guide.md").pathname
        "/tree/" = true ∧
      includes (plainUrl "https" "github.com" "/acme/widgets/tree/main/docs/guide.md").pathname
        "/blob/" = false ∧
      isMarkdownUrl samplePlatform "https://github.com/acme/widgets/tree/main/docs/guide.md"
        = true := by
  decide

/-- C3, amended: a `github.com` URL whose path ends in `.md` and contains `/tree/` is
classified as a Markdown URL as well: the first rule looks at the path ending alone. -/
theorem isMarkdownUrl_github_tree_md (P : Platform) (href : String) (url : URL)
    (hp : P.parseURL href = some url) (_hhost : url.hostname = "github.com")
    (_htree : includes url.pathname "/tree/" = true)
    (hmd : endsWith (toLowerCase url.pathname) ".md" = true) :
    isMarkdownUrl P href = true := by
  rw [isMarkdownUrl_parsed P href url hp, hmd]

/-- Witness for C3, amended. -/
theorem isMarkdownUrl_github_tree_md_witness :
    isMarkdownUrl samplePlatform "https://github.com/acme/widgets/tree/main/docs/guide.md"
      = true :=
  isMarkdownUrl_github_tree_md samplePlatform
    "https://github.com/acme/widgets/tree/main/docs/guide.md"
    (plainUrl "https" "github.com" "/acme/widgets/tree/main/docs/guide.md")
    (by decide) (by decide) (by decide) (by decide)

/-! ## URLClassifier: `githubRawUrl` -/

/-- C4: on the segments `[owner, repo, "blob", branch, f1, ..., fn]` with `n ≥ 1` the result
is the raw host followed by `owner/repo/branch/` and the file segments joined by `/`. -/
theorem githubRawUrl_blob (url : URL) (owner repo branch f : String) (fs : List String)
    (h : pathParts url = owner :: repo :: "blob" :: branch :: f :: fs) :
    githubRawUrl url = .ret (some ("https://raw.githubusercontent.com/" ++ owner ++ "/" ++ repo
      ++ "/" ++ branch ++ "/" ++ join (f :: fs) "/")) := by
  simp [githubRawUrl, h, item]

/-- Witness for C4: the blob URL of the specification. -/
theorem githubRawUrl_blob_witness :
    pathParts (plainUrl "https" "github.com" "/acme/widgets/blob/main/docs/guide.md")
        = ["acme", "widgets", "blob", "main", "docs", "guide.md"] ∧
      githubRawUrl (plainUrl "https" "github.com" "/acme/widgets/blob/main/docs/guide.md")
        = .ret (some "https://raw.githubusercontent.com/acme/widgets/main/docs/guide.md") :=
  ⟨by decide,
    githubRawUrl_blob (plainUrl "https" "github.com" "/acme/widgets/blob/main/docs/guide.md")
      "acme" "widgets" "main" "docs" ["guide.md"] (by decide)⟩

/-- C5: on the segments `[owner, repo, "tree", branch, d1, ..., dn]` the result is the raw
host followed by `owner/repo/branch/README.md` when `n = 0`, and by
`owner/repo/branch/d1/.../dn/README.md` when `n ≥ 1`. -/
theorem githubRawUrl_tree (url : URL) (owner repo branch : String) (ds : List String)
    (h : pathParts url = owner :: repo :: "tree" :: branch :: ds) :
    (ds = [] → githubRawUrl url = .ret (some ("https://raw.githubusercontent.com/" ++ owner
      ++ "/" ++ repo ++ "/" ++ branch ++ "/README.md"))) ∧
    (ds ≠ [] → githubRawUrl url = .ret (some ("https://raw.githubusercontent.com/" ++ owner
      ++ "/" ++ repo ++ "/" ++ branch ++ "/" ++ join ds "/" ++ "/README.md"))) := by
  constructor
  · intro hd
    subst hd
    simp [githubRawUrl, h, item, String.append_assoc]
  · intro hd
    obtain ⟨d, ds', rfl⟩ := List.exists_cons_of_ne_nil hd
    simp [githubRawUrl, h, item, String.append_assoc]

/-- Witness for C5: the tree URL of the specification, with one directory segment. -/
theorem githubRawUrl_tree_witness :
    pathParts (plainUrl "https" "github.com" "/acme/widgets/tree/main/docs")
        = ["acme", "widgets", "tree", "main", "docs"] ∧
      githubRawUrl (plainUrl "https" "github.com" "/acme/widgets/tree/main/docs")
        = .ret (some "https://raw.githubusercontent.com/acme/widgets/main/docs/README.md") :=
  ⟨by decide,
    (githubRawUrl_tree (plainUrl "https" "github.com" "/acme/widgets/tree/main/docs")
      "acme" "widgets" "main" ["docs"] (by decide)).2 (by decide)⟩

/-- C6: when the non-empty segments are exactly `[owner, repo]`, however many empty
segments the path has, the result is `owner/repo/HEAD/README.md` on the raw host. -/
theorem githubRawUrl_repo_root (url : URL) (owner repo : String)
    (h : pathParts url = [owner, repo]) :
    githubRawUrl url = .ret (some ("https://raw.githubusercontent.com/" ++ owner ++ "/" ++ repo
      ++ "/HEAD/README.md")) := by
  simp [githubRawUrl, h, item]

/-- Witness for C6: a path with leading, doubled and trailing slashes. -/
theorem githubRawUrl_repo_root_witness :
    split "//acme///widgets/" '/' = ["", "", "acme", "", "", "widgets", ""] ∧
      pathParts (plainUrl "https" "github.com" "//acme///widgets/") = ["acme", "widgets"] ∧
      githubRawUrl (plainUrl "https" "github.com" "//acme///widgets/")
        = .ret (some "https://raw.githubusercontent.com/acme/widgets/HEAD/README.md") :=
  ⟨by decide, by decide,
    githubRawUrl_repo_root (plainUrl "https" "github.com" "//acme///widgets/")
      "acme" "widgets" (by decide)⟩

/-- C7: `githubRawUrl` answers `null` exactly on the paths with fewer than two segments and
on those with three or more segments that have none of the blob, tree and `.md` shapes; on
every other path it returns a string. -/
theorem githubRawUrl_null_iff (url : URL) :
    (githubRawUrl url = .ret none ↔ nullShape (pathParts url)) ∧
    (¬ nullShape (pathParts url) → ∃ s, githubRawUrl url = .ret (some s)) := by
  refine ⟨githubRawUrl_null_iff_nullShape url, fun hn => ?_⟩
  rcases githubRawUrl_ret url with h | ⟨rest, h⟩
  · exact absurd ((githubRawUrl_null_iff_nullShape url).mp h) hn
  · exact ⟨_, h⟩

/-- C8, the code at the failing input: the path `/acme/widgets/blob/guide.md` has `blob` as
its third segment, and the result is the HEAD fallback with `blob` inside the file path. -/
theorem githubRawUrl_blob_four_segments :
    pathParts (plainUrl "https" "github.com" "/acme/widgets/blob/guide.md")
        = ["acme", "widgets", "blob", "guide.md"] ∧
      githubRawUrl (plainUrl "https" "github.com" "/acme/widgets/blob/guide.md")
        = .ret (some "https://raw.githubusercontent.com/acme/widgets/HEAD/blob/guide.md") := by
  decide

/-! ## URLClassifier: `toRawMarkdownUrl` -/

/-- C9: `toRawMarkdownUrl` is the `githubRawUrl` result when the string parses with host
`github.com` and that result is a string, and the string itself in every other case;
`githubRawUrl` never throws, and a parse failure is one of the other cases. -/
theorem toRawMarkdownUrl_spec (P : Platform) (href : String) :
    (∀ url raw, P.parseURL href = some url → url.hostname = "github.com" →
        githubRawUrl url = .ret (some raw) → toRawMarkdownUrl P href = raw) ∧
    ((¬ ∃ url raw, P.parseURL href = some url ∧ url.hostname = "github.com" ∧
        githubRawUrl url = .ret (some raw)) → toRawMarkdownUrl P href = href) ∧
    (∀ url, githubRawUrl url ≠ .thrown) := by
  refine ⟨?_, ?_, ?_⟩
  · intro url raw hp hh hr
    rcases githubRawUrl_ret url with h | ⟨rest, h⟩
    · rw [h] at hr
      cases hr
    · have hraw : raw = rawHost ++ rest := by
        rw [h] at hr
        cases hr
        rfl
      simp [toRawMarkdownUrl, hp, hh, h, hraw, rawHost_append_ne_empty]
  · intro hn
    unfold toRawMarkdownUrl
    cases hp : P.parseURL href with
    | none => rfl
    | some url =>
      simp only
      split_ifs with hh
      · rcases githubRawUrl_ret url with h | ⟨rest, h⟩
        · rw [h]
        · exact absurd ⟨url, _, hp, hh, h⟩ hn
      · rfl
  · intro url hthrow
    rcases githubRawUrl_ret url with h | ⟨rest, h⟩ <;> rw [h] at hthrow <;> cases hthrow

/-- C10, counterexample: `https://github.com/README.md` is a `resolveTargetHref` result that
begins with `http` and satisfies `isMarkdownUrl`, its host is `github.com`, and
`toRawMarkdownUrl` passes it through; `httpx://example.com/a.md` is accepted in the same
way and passed through, and its scheme is neither `http` nor `https`. -/
theorem toRawMarkdownUrl_candidate_passed_through :
    (resolveTargetHref samplePlatform "https://github.com/README.md"
        = .ret (some "https://github.com/README.md") ∧
      startsWith "https://github.com/README.md" "http" = true ∧
      isMarkdownUrl samplePlatform "https://github.com/README.md" = true ∧
      (samplePlatform.parseURL "https://github.com/README.md").map URL.hostname
        = some "github.com" ∧
      toRawMarkdownUrl samplePlatform "https://github.com/README.md"
        = "https://github.com/README.md") ∧
    (resolveTargetHref samplePlatform "httpx://example.com/a.md"
        = .ret (some "httpx://example.com/a.md") ∧
      startsWith "httpx://example.com/a.md" "http" = true ∧
      isMarkdownUrl samplePlatform "httpx://example.com/a.md" = true ∧
      toRawMarkdownUrl samplePlatform "httpx://example.com/a.md" = "httpx://example.com/a.md" ∧
      (samplePlatform.parseURL "httpx://example.com/a.md").map URL.protocol
        = some "httpx:") := by
  decide

/-- C10, amended: for every string that begins with `http` and satisfies `isMarkdownUrl`,
the normalised URL begins with `http` and is the string itself or a URL on the raw host;
when the string parses with host `github.com` and at least two non-empty path segments, it
is a URL on the raw host. -/
theorem toRawMarkdownUrl_candidate (P : Platform) (href : String)
    (hhttp : startsWith href "http" = true) (hmd : isMarkdownUrl P href = true) :
    startsWith (toRawMarkdownUrl P href) "http" = true ∧
    (toRawMarkdownUrl P href = href ∨ startsWith (toRawMarkdownUrl P href) rawHost = true) ∧
    (∀ url, P.parseURL href = some url → url.hostname = "github.com" →
      2 ≤ (pathParts url).length → startsWith (toRawMarkdownUrl P href) rawHost = true) := by
  refine ⟨?_, ?_, ?_⟩
  · rcases toRawMarkdownUrl_cases P href with h | ⟨rest, h⟩
    · rw [h]
      exact hhttp
    · rw [h]
      exact startsWith_http_rawHost_append rest
  · rcases toRawMarkdownUrl_cases P href with h | ⟨rest, h⟩
    · exact Or.inl h
    · rw [h]
      exact Or.inr (startsWith_rawHost_append rest)
  · intro url hp hh hlen
    rw [isMarkdownUrl_parsed P href url hp] at hmd
    obtain ⟨rest, hr⟩ := githubRawUrl_of_md_pathname url hmd hlen
    have : toRawMarkdownUrl P href = rawHost ++ rest := by
      simp [toRawMarkdownUrl, hp, hh, hr, rawHost_append_ne_empty]
    rw [this]
    exact startsWith_rawHost_append rest

/-- Witness for C10, amended: the blob URL of the specification. -/
theorem toRawMarkdownUrl_candidate_witness :
    startsWith "https://github.com/acme/widgets/blob/main/docs/guide.md" "http" = true ∧
      isMarkdownUrl samplePlatform "https://github.com/acme/widgets/blob/main/docs/guide.md"
        = true ∧
      toRawMarkdownUrl samplePlatform "https://github.com/acme/widgets/blob/main/docs/guide.md"
        = "https://raw.githubusercontent.com/acme/widgets/main/docs/guide.md" ∧
      startsWith
        (toRawMarkdownUrl samplePlatform "https://github.com/acme/widgets/blob/main/docs/guide.md")
        rawHost = true :=
  ⟨by decide, by decide, by decide,
    (toRawMarkdownUrl_candidate samplePlatform
      "https://github.com/acme/widgets/blob/main/docs/guide.md" (by decide) (by decide)).2.2
      (plainUrl "https" "github.com" "/acme/widgets/blob/main/docs/guide.md")
      (by decide) (by decide) (by decide)⟩

/-! ## ScanEngine -/

/-- C1, the code at the failing input: two scans of the whole document before either
verification settles start two verifications for the one container, and when both settle
with a successful `text/plain` response the container holds two affordances; a scan made
after the first affordance is attached starts nothing. -/
theorem injectButtons_two_scans_two_icons :
    iconCount samplePage 0 = 0 ∧
      (run samplePlatform samplePage [.scan document, .scan document]).pending
        = [{ block := 0, anchor := 0, url := "https://example.com/docs/README.MD" },
           { block := 0, anchor := 0, url := "https://example.com/docs/README.MD" }] ∧
      iconCount (run samplePlatform samplePage
        [.scan document, .scan document, .settle 0 (some plainTextResponse),
          .settle 0 (some plainTextResponse)]) 0 = 2 ∧
      iconCount (run samplePlatform samplePage
        [.scan document, .settle 0 (some plainTextResponse), .scan document]) 0 = 1 ∧
      (run samplePlatform samplePage
        [.scan document, .settle 0 (some plainTextResponse), .scan document]).pending = [] := by
  decide


/-! ## LinkResolver: lemmas -/

theorem resolveTargetHref_eq (P : Platform) (rawHref : String) :
    resolveTargetHref P rawHref =
      if rawHref = "" then .ret none
      else
        match absoluteHref P rawHref with
        | .thrown => .thrown
        | .ret href =>
          match P.parseURL href with
          | none => .ret none
          | some url =>
            .ret (some (upgradeScheme
              (if isGoogleRedirect url = true then (redirectTarget url).getD href else href))) := by
  unfold resolveTargetHref
  by_cases h0 : rawHref = ""
  · simp [h0]
  · simp only [h0, if_false]
    have key : ∀ href : String, (match P.parseURL href with
        | none => (Js.ret none : Js (Option String))
        | some url =>
          let isGoogleRedirect := includes url.hostname ".google." && decide (url.pathname = "/url")
          let href1 :=
            if isGoogleRedirect then
              let q := (url.searchParamsGet "q").filter (fun v => v ≠ "")
              let realHref := q.orElse (fun _ => url.searchParamsGet "url")
              match realHref with
              | some r => if r ≠ "" then r else href
              | none => href
            else href
          .ret (some (upgradeScheme href1))) =
        (match P.parseURL href with
        | none => .ret none
        | some url =>
          .ret (some (upgradeScheme
            (if isGoogleRedirect url = true then (redirectTarget url).getD href else href)))) := by
      intro href
      cases P.parseURL href with
      | none => rfl
      | some url =>
        simp only [isGoogleRedirect, redirectTarget]
        by_cases hg : (includes url.hostname ".google." && decide (url.pathname = "/url")) = true
        · simp only [hg, if_true]
          cases hq : url.searchParamsGet "q" with
          | none =>
            cases hu : url.searchParamsGet "url" with
            | none => simp [Option.filter, Option.orElse]
            | some v =>
              by_cases hv : v = "" <;> simp [Option.filter, Option.orElse, hv]
          | some q =>
            by_cases hq0 : q = ""
            · cases hu : url.searchParamsGet "url" with
              | none => simp [Option.filter, Option.orElse, hq0]
              | some v =>
                by_cases hv : v = "" <;> simp [Option.filter, Option.orElse, hv, hq0]
            · simp [Option.filter, Option.orElse, hq0]
        · simp [hg]
    unfold absoluteHref
    by_cases hs : startsWith rawHref "/" = true
    · simp only [hs, if_true]
      cases P.parseURLWithBase rawHref P.origin with
      | none => rfl
      | some u => exact key u.href
    · simp only [hs, if_false]
      exact key rawHref

theorem upgradeScheme_of_not_http (x : String) (h : startsWith x "http:" = false) :
    upgradeScheme x = x := by
  simp [upgradeScheme, h]

theorem startsWith_http_iff (x : String) :
    startsWith x "http:" = true ↔ ∃ rest, x = "http:" ++ rest := by
  unfold startsWith
  rw [List.isPrefixOf_iff_prefix]
  constructor
  · rintro ⟨t, ht⟩
    exact ⟨⟨t⟩, String.ext (by rw [String.data_append, ht])⟩
  · rintro ⟨rest, rfl⟩
    exact ⟨rest.data, by rw [String.data_append]⟩

theorem lookup_some_mem_keys {α : Type} (l : List (String × α)) (s : String) (u : α)
    (h : l.lookup s = some u) : s ∈ l.map Prod.fst := by
  induction l with
  | nil => simp [List.lookup] at h
  | cons kv rest ih =>
    obtain ⟨k, v⟩ := kv
    by_cases hk : s = k
    · simp [hk]
    · have hb : (s == k) = false := by simpa using hk
      rw [List.lookup, hb] at h
      simp [ih h]

theorem samplePlatform_parse_keys (s : String) (u : URL)
    (h : samplePlatform.parseURL s = some u) : s ∈ samplePages.map Prod.fst :=
  lookup_some_mem_keys samplePages s u h

theorem samplePlatform_upgrade (s : String) (u : URL)
    (h : samplePlatform.parseURL s = some u) (_hs : startsWith s "http:" = true) :
    (samplePlatform.parseURL (upgradeScheme s)).isSome = true := by
  have hk := samplePlatform_parse_keys s u h
  simp only [samplePages, List.map, List.mem_cons, List.mem_nil_iff, or_false] at hk
  rcases hk with rfl | rfl | rfl | rfl | rfl | rfl | rfl | rfl | rfl | rfl | rfl | rfl | rfl | rfl
    <;> decide

/-! ## LinkResolver: `resolveTargetHref` -/

/-- C11, the code at the failing input: `//[` begins with `/`, the two-argument `new URL`
rejects it, and `resolveTargetHref` throws instead of returning `null`; a scan that meets
such an anchor ends there, before the Markdown link that follows it. -/
theorem resolveTargetHref_throws_before_try :
    startsWith "//[" "/" = true ∧
      samplePlatform.parseURLWithBase "//[" samplePlatform.origin = none ∧
      resolveTargetHref samplePlatform "//[" = .thrown ∧
      injectButtons samplePlatform document
          { blocks := [{ anchors := [{ href := "//[", checked := false },
                                     { href := "https://example.com/docs/README.MD",
                                       checked := false }],
                         hasSnippet := true, icons := [] }],
            pending := [] }
        = ({ blocks := [{ anchors := [{ href := "//[", checked := false },
                                      { href := "https://example.com/docs/README.MD",
                                        checked := false }],
                          hasSnippet := true, icons := [] }],
             pending := [] }, true) := by
  decide

/-- C12, counterexample: on the redirect wrapper `https://www.google.com/url?q=hello` the
result is the parameter value `hello`, which does not parse as a URL. -/
theorem resolveTargetHref_unwrapped_not_url :
    resolveTargetHref samplePlatform "https://www.google.com/url?q=hello" = .ret (some "hello") ∧
      samplePlatform.parseURL "hello" = none := by
  decide

/-- C12, amended: a result that is not taken from the `q` or `url` parameter of a redirect
wrapper parses as a URL, the parser accepting the `https:` form of every `http:` string it
accepts. -/
theorem resolveTargetHref_result_parses (P : Platform) (rawHref r : String)
    (hup : ∀ s u, P.parseURL s = some u → startsWith s "http:" = true →
      (P.parseURL (upgradeScheme s)).isSome = true)
    (hnot : ∀ href url, absoluteHref P rawHref = .ret href → P.parseURL href = some url →
      isGoogleRedirect url = true → redirectTarget url = none)
    (h : resolveTargetHref P rawHref = .ret (some r)) :
    (P.parseURL r).isSome = true := by
  rw [resolveTargetHref_eq] at h
  by_cases h0 : rawHref = ""
  · simp [h0] at h
  · rw [if_neg h0] at h
    cases ha : absoluteHref P rawHref with
    | thrown => simp [ha] at h
    | ret href =>
      cases hp : P.parseURL href with
      | none => simp [ha, hp] at h
      | some url =>
        have hr : r = upgradeScheme href := by
          by_cases hg : isGoogleRedirect url = true
          · simp [ha, hp, hg, hnot href url ha hp hg] at h
            exact h.symm
          · simp [ha, hp, hg] at h
            exact h.symm
        rw [hr]
        by_cases hs : startsWith href "http:" = true
        · exact hup href url hp hs
        · rw [upgradeScheme_of_not_http href (by simpa using hs), hp]
          rfl

/-- Witness for C12, amended: the `http` URL of the specification. -/
theorem resolveTargetHref_result_parses_witness :
    resolveTargetHref samplePlatform "http://example.com/a.md"
        = .ret (some "https://example.com/a.md") ∧
      (samplePlatform.parseURL "https://example.com/a.md").isSome = true :=
  ⟨by decide,
    resolveTargetHref_result_parses samplePlatform "http://example.com/a.md"
      "https://example.com/a.md" samplePlatform_upgrade
      (by
        intro href url ha hp hg
        have ha1 : absoluteHref samplePlatform "http://example.com/a.md"
            = .ret "http://example.com/a.md" := by decide
        rw [ha1] at ha
        cases ha
        have hp1 : samplePlatform.parseURL "http://example.com/a.md"
            = some (plainUrl "http" "example.com" "/a.md") := by decide
        rw [hp1] at hp
        cases hp
        exact absurd hg (by decide))
      (by decide)⟩

/-- C13: on a URL whose host name contains `.google.` and whose path is `/url` the result is
parameter `q` when it is not empty, else parameter `url` when it is not empty, else the
wrapper itself, each with a literal leading `http:` replaced by `https:`; on any other URL
it is the URL itself with that replacement, whatever the query parameters are. -/
theorem resolveTargetHref_wrapper (P : Platform) (rawHref href : String) (url : URL)
    (hne : rawHref ≠ "") (habs : absoluteHref P rawHref = .ret href)
    (hp : P.parseURL href = some url) :
    ((includes url.hostname ".google." = true ∧ url.pathname = "/url") →
      (∀ q, url.searchParamsGet "q" = some q → q ≠ "" →
        ∃ r, resolveTargetHref P rawHref = .ret (some r) ∧ schemeUpgraded q r) ∧
      ((url.searchParamsGet "q" = none ∨ url.searchParamsGet "q" = some "") →
        ∀ v, url.searchParamsGet "url" = some v → v ≠ "" →
          ∃ r, resolveTargetHref P rawHref = .ret (some r) ∧ schemeUpgraded v r) ∧
      ((url.searchParamsGet "q" = none ∨ url.searchParamsGet "q" = some "") →
        (url.searchParamsGet "url" = none ∨ url.searchParamsGet "url" = some "") →
          ∃ r, resolveTargetHref P rawHref = .ret (some r) ∧ schemeUpgraded href r)) ∧
    (¬ (includes url.hostname ".google." = true ∧ url.pathname = "/url") →
      ∃ r, resolveTargetHref P rawHref = .ret (some r) ∧ schemeUpgraded href r) := by
  have hupg : ∀ x : String, schemeUpgraded x (upgradeScheme x) := by
    intro x
    constructor
    · rintro rest rfl
      have hs : startsWith ("http:" ++ rest) "http:" = true := by
        simp [startsWith, String.data_append]
      unfold upgradeScheme
      rw [if_pos hs]
      congr 1
    · intro h
      unfold upgradeScheme
      rw [if_neg (fun hs => h ((startsWith_http_iff x).mp hs))]
  have hres : resolveTargetHref P rawHref = .ret (some (upgradeScheme
      (if isGoogleRedirect url = true then (redirectTarget url).getD href else href))) := by
    rw [resolveTargetHref_eq, if_neg hne, habs]
    simp only [hp]
  constructor
  · rintro ⟨hh, hpath⟩
    have hg : isGoogleRedirect url = true := by simp [isGoogleRedirect, hh, hpath]
    rw [hres, if_pos hg]
    refine ⟨?_, ?_, ?_⟩
    · intro q hq hq0
      refine ⟨upgradeScheme q, ?_, hupg q⟩
      simp [redirectTarget, hq, Option.filter, hq0]
    · intro hq v hv hv0
      refine ⟨upgradeScheme v, ?_, hupg v⟩
      rcases hq with hq | hq <;> simp [redirectTarget, hq, hv, Option.filter, hv0]
    · intro hq hv
      refine ⟨upgradeScheme href, ?_, hupg href⟩
      rcases hq with hq | hq <;> rcases hv with hv | hv <;>
        simp [redirectTarget, hq, hv, Option.filter]
  · intro hn
    have hg : ¬ isGoogleRedirect url = true := by
      intro hg
      apply hn
      simpa [isGoogleRedirect] using hg
    rw [hres, if_neg hg]
    exact ⟨upgradeScheme href, rfl, hupg href⟩

/-- Witness for C13: a relative wrapper on a Google origin whose parameter `q` is an `http`
URL: the result is that URL with `https`. -/
theorem resolveTargetHref_wrapper_witness :
    absoluteHref samplePlatform "/url?q=http://example.com/a.md"
        = .ret "https://www.google.com/url?q=http://example.com/a.md" ∧
      resolveTargetHref samplePlatform "/url?q=http://example.com/a.md"
        = .ret (some "https://example.com/a.md") ∧
      ∃ r, resolveTargetHref samplePlatform "/url?q=http://example.com/a.md" = .ret (some r) ∧
        schemeUpgraded "http://example.com/a.md" r :=
  ⟨by decide, by decide,
    ((resolveTargetHref_wrapper samplePlatform "/url?q=http://example.com/a.md"
      "https://www.google.com/url?q=http://example.com/a.md"
      ⟨"https:", "www.google.com", "/url", [("q", "http://example.com/a.md")],
        "https://www.google.com/url?q=http://example.com/a.md"⟩
      (by decide) (by decide) (by decide)).1 ⟨by decide, by decide⟩).1
      "http://example.com/a.md" (by decide) (by decide)⟩

/-- C14, counterexample: `/docs/a.md` on the origin `https://www.google.com` parses after
its resolution, is not a redirect wrapper and does not begin with `http:`, and the result
is the resolved URL `https://www.google.com/docs/a.md`, not the string itself. -/
theorem resolveTargetHref_relative_not_unchanged :
    startsWith "/docs/a.md" "http:" = false ∧
      absoluteHref samplePlatform "/docs/a.md" = .ret "https://www.google.com/docs/a.md" ∧
      (samplePlatform.parseURL "https://www.google.com/docs/a.md").map isGoogleRedirect
        = some false ∧
      resolveTargetHref samplePlatform "/docs/a.md"
        = .ret (some "https://www.google.com/docs/a.md") := by
  decide

/-- C14, amended: for a string that is not empty, whose absolute form (the string itself
when it does not begin with `/`, else its resolution against the origin) parses and is not
a redirect wrapper, the result is that absolute form with a literal leading `http:`
replaced by `https:` and nothing else changed; so a string that does not begin with `/` is
returned with that replacement only; and no result at all begins with `http:`. -/
theorem resolveTargetHref_scheme_upgrade (P : Platform) (rawHref href : String) (url : URL)
    (hne : rawHref ≠ "") (habs : absoluteHref P rawHref = .ret href)
    (hp : P.parseURL href = some url) (hnw : isGoogleRedirect url = false) :
    (startsWith rawHref "/" = false →
      ∃ r, resolveTargetHref P rawHref = .ret (some r) ∧ schemeUpgraded rawHref r) ∧
    (∃ r, resolveTargetHref P rawHref = .ret (some r) ∧ schemeUpgraded href r) ∧
    (∀ raw r, resolveTargetHref P raw = .ret (some r) → ∀ rest, r ≠ "http:" ++ rest) := by
  have hupg : ∀ x : String, schemeUpgraded x (upgradeScheme x) := by
    intro x
    constructor
    · rintro rest rfl
      have hs : startsWith ("http:" ++ rest) "http:" = true := by
        simp [startsWith, String.data_append]
      unfold upgradeScheme
      rw [if_pos hs]
      congr 1
    · intro h
      unfold upgradeScheme
      rw [if_neg (fun hs => h ((startsWith_http_iff x).mp hs))]
  have hno : ∀ x : String, startsWith (upgradeScheme x) "http:" = false := by
    intro x
    unfold upgradeScheme
    by_cases h : startsWith x "http:" = true
    · rw [if_pos h]
      have hd : ("https:" : String).data = ['h', 't', 't', 'p', 's', ':'] := rfl
      have hd2 : ("http:" : String).data = ['h', 't', 't', 'p', ':'] := rfl
      simp [startsWith, String.data_append, hd, hd2, List.isPrefixOf]
    · rw [if_neg h]
      simpa using h
  have hres : resolveTargetHref P rawHref = .ret (some (upgradeScheme href)) := by
    rw [resolveTargetHref_eq, if_neg hne, habs]
    simp [hp, hnw]
  refine ⟨?_, ⟨_, hres, hupg href⟩, ?_⟩
  · intro hs
    have hh : href = rawHref := by
      simp only [absoluteHref, hs, Bool.false_eq_true, if_false, Js.ret.injEq] at habs
      exact habs.symm
    subst hh
    exact ⟨_, hres, hupg _⟩
  · intro raw r hr rest hrest
    have hstart : startsWith r "http:" = true := (startsWith_http_iff r).mpr ⟨rest, hrest⟩
    rw [resolveTargetHref_eq] at hr
    by_cases h0 : raw = ""
    · simp [h0] at hr
    · rw [if_neg h0] at hr
      cases ha : absoluteHref P raw with
      | thrown => simp [ha] at hr
      | ret href1 =>
        cases hq : P.parseURL href1 with
        | none => simp [ha, hq] at hr
        | some u =>
          simp only [ha, hq, Js.ret.injEq, Option.some.injEq] at hr
          rw [← hr, hno] at hstart
          cases hstart

/-- Witness for C14, amended: the `http` URL of the specification. -/
theorem resolveTargetHref_scheme_upgrade_witness :
    startsWith "http://example.com/a.md" "/" = false ∧
      samplePlatform.parseURL "http://example.com/a.md"
        = some (plainUrl "http" "example.com" "/a.md") ∧
      resolveTargetHref samplePlatform "http://example.com/a.md"
        = .ret (some "https://example.com/a.md") ∧
      ∃ r, resolveTargetHref samplePlatform "http://example.com/a.md" = .ret (some r) ∧
        schemeUpgraded "http://example.com/a.md" r :=
  ⟨by decide, by decide, by decide,
    (resolveTargetHref_scheme_upgrade samplePlatform "http://example.com/a.md"
      "http://example.com/a.md" (plainUrl "http" "example.com" "/a.md")
      (by decide) (by decide) (by decide) (by decide)).1 (by decide)⟩

/-! ## VerificationProbe: `isRealMarkdownByHead` -/

/-- C15, counterexample: a successful response whose header declares the media type
`text/html` and carries the words `text/plain` in a parameter is answered with `true`. -/
theorem isRealMarkdownByHead_other_type_true :
    mediaType "text/html; variant=text/plain" = "text/html" ∧
      isRealMarkdownByHead (some { ok := true, contentType := some "text/html; variant=text/plain" })
        = true := by
  decide

/-- C15, amended: `isRealMarkdownByHead` answers `true` exactly when `fetch` settles with a
response of success status whose `content-type` value, lower-cased, contains `text/markdown`,
`text/plain` or `application/octet-stream`; a failed `fetch`, another status and a missing
header give `false`. -/
theorem isRealMarkdownByHead_iff (res : Option Response) :
    (isRealMarkdownByHead res = true ↔
      ∃ r v, res = some r ∧ r.ok = true ∧ r.contentType = some v ∧
        (includes (toLowerCase v) "text/markdown" = true ∨
          includes (toLowerCase v) "text/plain" = true ∨
          includes (toLowerCase v) "application/octet-stream" = true)) ∧
    isRealMarkdownByHead none = false ∧
    (∀ ct, isRealMarkdownByHead (some { ok := false, contentType := ct }) = false) ∧
    (∀ ok, isRealMarkdownByHead (some { ok := ok, contentType := none }) = false) := by
  refine ⟨?_, rfl, fun ct => rfl, ?_⟩
  · cases res with
    | none => simp [isRealMarkdownByHead]
    | some r =>
      obtain ⟨ok, ct⟩ := r
      cases ok with
      | false => simp [isRealMarkdownByHead]
      | true =>
        cases ct with
        | none =>
          have h1 : includes (toLowerCase "") "text/markdown" = false := by decide
          have h2 : includes (toLowerCase "") "text/plain" = false := by decide
          have h3 : includes (toLowerCase "") "application/octet-stream" = false := by decide
          simp [isRealMarkdownByHead, h1, h2, h3]
        | some v => simp [isRealMarkdownByHead, or_assoc]
  · intro ok
    cases ok with
    | false => rfl
    | true => decide

/-! ## URLClassifier: the one-rule classifier -/

/-- C19: `isMarkdownUrl` is a total function that agrees with the one-rule classifier on
every input: it is `true` exactly when the string parses as a URL whose lower-cased path
ends in `.md`, and the `github.com` and `raw.githubusercontent.com` rules change nothing. -/
theorem isMarkdownUrl_eq_byPath (P : Platform) (href : String) :
    isMarkdownUrl P href = isMarkdownUrlByPath P href ∧
    (isMarkdownUrl P href = true ↔
      ∃ url, P.parseURL href = some url ∧ endsWith (toLowerCase url.pathname) ".md" = true) := by
  have h1 : isMarkdownUrl P href = isMarkdownUrlByPath P href := by
    unfold isMarkdownUrlByPath
    cases hp : P.parseURL href with
    | none => simp [isMarkdownUrl, hp]
    | some url => exact isMarkdownUrl_parsed P href url hp
  refine ⟨h1, ?_⟩
  rw [h1]
  unfold isMarkdownUrlByPath
  cases hp : P.parseURL href with
  | none => simp
  | some url => simp


/-! ## ScanEngine: lemmas -/

theorem qualifies_eq_some (P : Platform) (a : Anchor) (r : String) :
    qualifies P a = some r ↔
      resolveTargetHref P a.href = .ret (some r) ∧ r ≠ "" ∧ startsWith r "http" = true ∧
        isMarkdownUrl P r = true := by
  unfold qualifies
  cases hres : resolveTargetHref P a.href with
  | thrown => simp
  | ret o =>
    cases o with
    | none => simp
    | some r1 =>
      by_cases hc : r1 ≠ "" ∧ startsWith r1 "http" = true ∧ isMarkdownUrl P r1 = true
      · dsimp only
        rw [if_pos hc]
        simp only [Option.some.injEq, Js.ret.injEq]
        constructor
        · intro h
          subst h
          exact ⟨rfl, hc⟩
        · intro h
          exact h.1
      · dsimp only
        rw [if_neg hc]
        simp only [Option.some.injEq, Js.ret.injEq]
        constructor
        · intro h
          cases h
        · rintro ⟨h1, h2⟩
          subst h1
          exact absurd h2 hc

theorem scanAnchors_cons (P : Platform) (i : Nat) (a : Anchor) (rest : List Anchor) :
    scanAnchors P i (a :: rest) =
      match resolveTargetHref P a.href with
      | .thrown => (a :: rest, .threw)
      | .ret _ =>
        match qualifies P a with
        | some r => ({ a with checked := true } :: rest, .target i r)
        | none =>
          ({ a with checked := true } :: (scanAnchors P (i + 1) rest).1,
            (scanAnchors P (i + 1) rest).2) := by
  unfold qualifies
  rw [scanAnchors]
  cases hres : resolveTargetHref P a.href with
  | thrown => rfl
  | ret o =>
    cases o with
    | none => rfl
    | some r =>
      by_cases h1 : r = ""
      · simp [h1]
      · by_cases h2 : startsWith r "http" = true
        · by_cases h3 : isMarkdownUrl P r = true
          · simp [h1, h2, h3]
          · simp [h1, h2, h3]
        · simp [h1, h2]


theorem scanAnchors_idem (P : Platform) (as : List Anchor) :
    ∀ i, scanAnchors P i (scanAnchors P i as).1 = scanAnchors P i as := by
  induction as with
  | nil => intro i; rfl
  | cons a rest ih =>
    intro i
    rw [scanAnchors_cons P i a rest]
    cases hres : resolveTargetHref P a.href with
    | thrown =>
      simp only
      rw [scanAnchors_cons P i a rest, hres]
    | ret o =>
      cases hq : qualifies P a with
      | some r =>
        simp only
        have hq1 : qualifies P { a with checked := true } = some r := hq
        have hres1 : resolveTargetHref P ({ a with checked := true } : Anchor).href = .ret o := hres
        rw [scanAnchors_cons, hres1, hq1]
      | none =>
        simp only
        have hq1 : qualifies P { a with checked := true } = none := hq
        have hres1 : resolveTargetHref P ({ a with checked := true } : Anchor).href = .ret o := hres
        rw [scanAnchors_cons, hres1, hq1]
        simp only
        rw [ih (i + 1)]

theorem scanAnchors_unmark (P : Platform) (as : List Anchor) :
    ∀ i, (scanAnchors P i as).1.map Anchor.unmark = as.map Anchor.unmark := by
  induction as with
  | nil => intro i; rfl
  | cons a rest ih =>
    intro i
    rw [scanAnchors_cons P i a rest]
    cases hres : resolveTargetHref P a.href with
    | thrown => rfl
    | ret o =>
      cases hq : qualifies P a with
      | some r => rfl
      | none =>
        simp only [List.map_cons, ih (i + 1)]
        rfl

theorem scanAnchors_all_examined (P : Platform) (as : List Anchor)
    (h : ∀ a ∈ as, qualifies P a = none ∧ resolveTargetHref P a.href ≠ .thrown) :
    ∀ i, scanAnchors P i as = (as.map (fun a => { a with checked := true }), .nothing) := by
  induction as with
  | nil => intro i; rfl
  | cons a rest ih =>
    intro i
    have ha := h a (List.mem_cons_self a rest)
    have hrest := ih (fun b hb => h b (List.mem_cons_of_mem a hb))
    rw [scanAnchors_cons P i a rest]
    cases hres : resolveTargetHref P a.href with
    | thrown => exact absurd hres ha.2
    | ret o =>
      simp only [ha.1, hrest (i + 1), List.map_cons]

theorem scanAnchors_target (P : Platform) (as : List Anchor) :
    ∀ i k href, (scanAnchors P i as).2 = .target k href →
      ∃ j a, k = i + j ∧ as[j]? = some a ∧ qualifies P a = some href ∧
        ∀ j1 a1, j1 < j → as[j1]? = some a1 →
          qualifies P a1 = none ∧ resolveTargetHref P a1.href ≠ .thrown := by
  induction as with
  | nil =>
    intro i k href h
    simp [scanAnchors] at h
  | cons a rest ih =>
    intro i k href h
    rw [scanAnchors_cons P i a rest] at h
    cases hres : resolveTargetHref P a.href with
    | thrown => simp [hres] at h
    | ret o =>
      cases hq : qualifies P a with
      | some r =>
        simp only [hres, hq, Found.target.injEq] at h
        obtain ⟨rfl, rfl⟩ := h
        exact ⟨0, a, rfl, by simp, hq, fun j1 a1 hj => absurd hj (Nat.not_lt_zero _)⟩
      | none =>
        simp only [hres, hq] at h
        obtain ⟨j, b, hk, hb, hqb, hmin⟩ := ih (i + 1) k href h
        refine ⟨j + 1, b, by omega, by simpa using hb, hqb, ?_⟩
        intro j1 a1 hj1 ha1
        cases j1 with
        | zero =>
          simp only [List.getElem?_cons_zero, Option.some.injEq] at ha1
          subst ha1
          exact ⟨hq, by rw [hres]; simp⟩
        | succ j2 =>
          exact hmin j2 a1 (by omega) (by simpa using ha1)

theorem scanAnchors_first (P : Platform) (as : List Anchor) :
    ∀ i j a r, as[j]? = some a → qualifies P a = some r →
      (∀ j1 a1, j1 < j → as[j1]? = some a1 →
        qualifies P a1 = none ∧ resolveTargetHref P a1.href ≠ .thrown) →
      (scanAnchors P i as).2 = .target (i + j) r := by
  induction as with
  | nil =>
    intro i j a r h
    simp at h
  | cons a0 rest ih =>
    intro i j a r hj hq hmin
    rw [scanAnchors_cons P i a0 rest]
    cases j with
    | zero =>
      simp only [List.getElem?_cons_zero, Option.some.injEq] at hj
      subst hj
      have hres := ((qualifies_eq_some P a0 r).mp hq).1
      simp only [hres, hq, Nat.add_zero]
    | succ j2 =>
      have h0 := hmin 0 a0 (by omega) (by simp)
      cases hres : resolveTargetHref P a0.href with
      | thrown => exact absurd hres h0.2
      | ret o =>
        simp only [h0.1]
        have := ih (i + 1) j2 a r (by simpa using hj) hq
          (fun j1 a1 hj1 ha1 => hmin (j1 + 1) a1 (by omega) (by simpa using ha1))
        rw [this]
        congr 1
        omega

theorem scanBlocks_cons (P : Platform) (root : Nat → Bool) (i : Nat) (b : Block)
    (rest : List Block) :
    scanBlocks P root i (b :: rest) =
      if root i = false ∨ b.icons ≠ [] then (scanBlocks P root (i + 1) rest).cons b []
      else
        match (scanAnchors P 0 b.anchors).2 with
        | .threw =>
          { blocks := { b with anchors := (scanAnchors P 0 b.anchors).1 } :: rest,
            started := [], threw := true }
        | .nothing =>
          (scanBlocks P root (i + 1) rest).cons
            { b with anchors := (scanAnchors P 0 b.anchors).1 } []
        | .target k href =>
          (scanBlocks P root (i + 1) rest).cons
            { b with anchors := (scanAnchors P 0 b.anchors).1 }
            (if href = "" then []
              else [{ block := i, anchor := k, url := toRawMarkdownUrl P href }]) := by
  rw [scanBlocks]
  by_cases h1 : root i = false
  · simp [h1]
  · by_cases h2 : b.icons ≠ []
    · simp [h1, h2]
    · rw [if_neg h1, if_neg h2, if_neg (by simp [h1, h2])]
      generalize scanAnchors P 0 b.anchors = x
      obtain ⟨as, f⟩ := x
      cases f with
      | threw => rfl
      | nothing => rfl
      | target k href =>
        by_cases h3 : href = "" <;> simp [h3]

theorem scanBlocks_idem (P : Platform) (root : Nat → Bool) (bs : List Block) :
    ∀ i, scanBlocks P root i (scanBlocks P root i bs).blocks = scanBlocks P root i bs := by
  induction bs with
  | nil => intro i; rfl
  | cons b rest ih =>
    intro i
    rw [scanBlocks_cons P root i b rest]
    by_cases hc : root i = false ∨ b.icons ≠ []
    · rw [if_pos hc]
      simp only [ScanResult.cons]
      rw [scanBlocks_cons, if_pos hc, ih (i + 1)]
      rfl
    · rw [if_neg hc]
      have hidem := scanAnchors_idem P b.anchors 0
      cases hf : (scanAnchors P 0 b.anchors).2 with
      | threw =>
        simp only
        rw [scanBlocks_cons, if_neg hc]
        simp only [hidem, hf]
      | nothing =>
        simp only [ScanResult.cons]
        rw [scanBlocks_cons, if_neg hc]
        simp only [hidem, hf, ih (i + 1)]
        rfl
      | target k href =>
        simp only [ScanResult.cons]
        rw [scanBlocks_cons, if_neg hc]
        simp only [hidem, hf, ih (i + 1)]
        rfl

theorem scanBlocks_unmark (P : Platform) (root : Nat → Bool) (bs : List Block) :
    ∀ i, (scanBlocks P root i bs).blocks.map Block.unmark = bs.map Block.unmark := by
  induction bs with
  | nil => intro i; rfl
  | cons b rest ih =>
    intro i
    have hb : ({ b with anchors := (scanAnchors P 0 b.anchors).1 } : Block).unmark = b.unmark := by
      simp only [Block.unmark, scanAnchors_unmark P b.anchors 0]
    rw [scanBlocks_cons P root i b rest]
    by_cases hc : root i = false ∨ b.icons ≠ []
    · rw [if_pos hc]
      simp only [ScanResult.cons, List.map_cons, ih (i + 1)]
    · rw [if_neg hc]
      cases hf : (scanAnchors P 0 b.anchors).2 with
      | threw => simp only [List.map_cons, hb]
      | nothing => simp only [ScanResult.cons, List.map_cons, hb, ih (i + 1)]
      | target k href => simp only [ScanResult.cons, List.map_cons, hb, ih (i + 1)]

theorem scanBlocks_started_ge (P : Platform) (root : Nat → Bool) (bs : List Block) :
    ∀ i, ∀ pr ∈ (scanBlocks P root i bs).started, i ≤ pr.block := by
  induction bs with
  | nil =>
    intro i pr h
    simp [scanBlocks] at h
  | cons b rest ih =>
    intro i pr h
    rw [scanBlocks_cons P root i b rest] at h
    by_cases hc : root i = false ∨ b.icons ≠ []
    · rw [if_pos hc] at h
      simp only [ScanResult.cons, List.nil_append] at h
      exact Nat.le_of_succ_le (ih (i + 1) pr h)
    · rw [if_neg hc] at h
      cases hf : (scanAnchors P 0 b.anchors).2 with
      | threw => simp [hf] at h
      | nothing =>
        simp only [hf, ScanResult.cons, List.nil_append] at h
        exact Nat.le_of_succ_le (ih (i + 1) pr h)
      | target k href =>
        simp only [hf, ScanResult.cons, List.mem_append] at h
        rcases h with h | h
        · by_cases h3 : href = ""
          · simp [h3] at h
          · simp only [h3, if_false, List.mem_singleton] at h
            subst h
            exact Nat.le_refl _
        · exact Nat.le_of_succ_le (ih (i + 1) pr h)

theorem scanBlocks_started_head (P : Platform) (root : Nat → Bool) (i : Nat) (b : Block)
    (rest : List Block) (pr : Probe) (h : pr ∈ (scanBlocks P root i (b :: rest)).started)
    (hi : pr.block = i) :
    ∃ href, (scanAnchors P 0 b.anchors).2 = .target pr.anchor href ∧
      pr.url = toRawMarkdownUrl P href := by
  have hrest : pr ∉ (scanBlocks P root (i + 1) rest).started := by
    intro hm
    have := scanBlocks_started_ge P root rest (i + 1) pr hm
    omega
  rw [scanBlocks_cons P root i b rest] at h
  by_cases hc : root i = false ∨ b.icons ≠ []
  · rw [if_pos hc] at h
    simp only [ScanResult.cons, List.nil_append] at h
    exact absurd h hrest
  · rw [if_neg hc] at h
    cases hf : (scanAnchors P 0 b.anchors).2 with
    | threw => simp [hf] at h
    | nothing =>
      simp only [hf, ScanResult.cons, List.nil_append] at h
      exact absurd h hrest
    | target k href =>
      simp only [hf, ScanResult.cons, List.mem_append] at h
      rcases h with h | h
      · by_cases h3 : href = ""
        · simp [h3] at h
        · simp only [h3, if_false, List.mem_singleton] at h
          subst h
          exact ⟨href, rfl, rfl⟩
      · exact absurd h hrest


theorem probeSettled_false_blocks (k : Nat) (res : Option Response) (pg : Page)
    (hfalse : isRealMarkdownByHead res = false) : (probeSettled k res pg).blocks = pg.blocks := by
  unfold probeSettled
  cases pg.pending[k]? with
  | none => rfl
  | some pr => simp [hfalse]

/-! ## ScanEngine: the completion callback and the selection of the anchor -/

/-- C16: when the verification yields `false`, the completion callback leaves every
container of the scanned page as it was, so no affordance is attached and nothing is
marked, and a later scan of the same root starts again the verifications the first scan
started. -/
theorem probeSettled_false_leaves_container (P : Platform) (root : Nat → Bool) (pg : Page)
    (k : Nat) (res : Option Response) (hfalse : isRealMarkdownByHead res = false) :
    (probeSettled k res (injectButtons P root pg).1).blocks = (injectButtons P root pg).1.blocks ∧
    (∀ i, iconCount (probeSettled k res (injectButtons P root pg).1) i
      = iconCount (injectButtons P root pg).1 i) ∧
    (injectButtons P root (probeSettled k res (injectButtons P root pg).1)).1.pending
      = (probeSettled k res (injectButtons P root pg).1).pending
        ++ (scanBlocks P root 0 pg.blocks).started := by
  have hb := probeSettled_false_blocks k res (injectButtons P root pg).1 hfalse
  refine ⟨hb, ?_, ?_⟩
  · intro i
    simp only [iconCount, hb]
  · simp only [injectButtons] at hb ⊢
    rw [hb, scanBlocks_idem]

/-- Witness for C16: the sample page, scanned, with a response of status 404. -/
theorem probeSettled_false_leaves_container_witness :
    isRealMarkdownByHead (some notFoundResponse) = false ∧
      iconCount (probeSettled 0 (some notFoundResponse)
        (injectButtons samplePlatform document samplePage).1) 0 = 0 ∧
      (injectButtons samplePlatform document (probeSettled 0 (some notFoundResponse)
        (injectButtons samplePlatform document samplePage).1)).1.pending
        = [{ block := 0, anchor := 0, url := "https://example.com/docs/README.MD" }] :=
  ⟨by decide,
    ((probeSettled_false_leaves_container samplePlatform document samplePage 0
      (some notFoundResponse) (by decide)).2.1 0).trans (by decide),
    (probeSettled_false_leaves_container samplePlatform document samplePage 0
      (some notFoundResponse) (by decide)).2.2.trans (by decide)⟩

/-- C17: the anchor the scan selects passes the three tests with the reference carried
forward, and no anchor before it does; a verification started for the container is for
that anchor and that reference; when no anchor passes the three tests none is started for
the container; and the first anchor that passes them is selected when the resolution of
the anchors before it does not throw. -/
theorem injectButtons_selects_first (P : Platform) (root : Nat → Bool) (i : Nat) (b : Block)
    (rest : List Block) :
    (∀ k href, (scanAnchors P 0 b.anchors).2 = .target k href →
      (∃ a, b.anchors[k]? = some a ∧ resolveTargetHref P a.href = .ret (some href) ∧
        startsWith href "http" = true ∧ isMarkdownUrl P href = true) ∧
      (∀ j a, j < k → b.anchors[j]? = some a → qualifies P a = none)) ∧
    (∀ pr ∈ (scanBlocks P root i (b :: rest)).started, pr.block = i →
      ∃ href, (scanAnchors P 0 b.anchors).2 = .target pr.anchor href ∧
        pr.url = toRawMarkdownUrl P href) ∧
    ((∀ a ∈ b.anchors, qualifies P a = none) →
      ∀ pr ∈ (scanBlocks P root i (b :: rest)).started, pr.block ≠ i) ∧
    (∀ k a href, b.anchors[k]? = some a → qualifies P a = some href →
      (∀ j a1, j < k → b.anchors[j]? = some a1 →
        qualifies P a1 = none ∧ resolveTargetHref P a1.href ≠ .thrown) →
      (scanAnchors P 0 b.anchors).2 = .target k href) := by
  refine ⟨?_, ?_, ?_, ?_⟩
  · intro k href h
    obtain ⟨j, a, hk, ha, hq, hmin⟩ := scanAnchors_target P b.anchors 0 k href h
    have hkj : k = j := by omega
    subst hkj
    obtain ⟨h1, -, h3, h4⟩ := (qualifies_eq_some P a href).mp hq
    exact ⟨⟨a, ha, h1, h3, h4⟩, fun j1 a1 hj1 ha1 => (hmin j1 a1 hj1 ha1).1⟩
  · intro pr hpr hi
    exact scanBlocks_started_head P root i b rest pr hpr hi
  · intro hnone pr hpr hi
    obtain ⟨href, ht, -⟩ := scanBlocks_started_head P root i b rest pr hpr hi
    obtain ⟨j, a, -, ha, hq, -⟩ := scanAnchors_target P b.anchors 0 pr.anchor href ht
    have hmem : a ∈ b.anchors := List.getElem?_mem ha
    rw [hnone a hmem] at hq
    cases hq
  · intro k a href ha hq hmin
    have := scanAnchors_first P b.anchors 0 k a href ha hq hmin
    simpa using this

/-- C18, counterexample: in a container whose only anchor points to an HTML page no anchor
qualifies, and the scan leaves that anchor with `dataset.md2pdfChecked` set. -/
theorem injectButtons_marks_anchor :
    htmlPage.blocks
        = [{ anchors := [{ href := "https://example.com/index.html", checked := false }],
             hasSnippet := true, icons := [] }] ∧
      qualifies samplePlatform { href := "https://example.com/index.html", checked := false }
        = none ∧
      injectButtons samplePlatform document htmlPage
        = ({ blocks := [{ anchors := [{ href := "https://example.com/index.html",
                                        checked := true }],
                          hasSnippet := true, icons := [] }],
             pending := [] }, false) := by
  decide

/-- C18, amended: a scan changes nothing of the containers and their anchors but the
`dataset.md2pdfChecked` flag of the anchors, and it adds verifications to those in flight;
in a list of anchors none of which qualifies or makes the resolution throw, it sets the flag
on every anchor and selects none. -/
theorem injectButtons_frame (P : Platform) (root : Nat → Bool) (pg : Page) :
    (injectButtons P root pg).1.blocks.map Block.unmark = pg.blocks.map Block.unmark ∧
    (∃ started, (injectButtons P root pg).1.pending = pg.pending ++ started) ∧
    (∀ as : List Anchor,
      (∀ a ∈ as, qualifies P a = none ∧ resolveTargetHref P a.href ≠ .thrown) →
      scanAnchors P 0 as = (as.map (fun a => { a with checked := true }), .nothing)) := by
  refine ⟨?_, ⟨_, rfl⟩, ?_⟩
  · exact scanBlocks_unmark P root pg.blocks 0
  · intro as h
    exact scanAnchors_all_examined P as h 0


/-! ## Normalisation and classification: lemmas -/

theorem endsWith_md_append (a b : String)
    (h : endsWith (toLowerCase b) ".md" = true) :
    endsWith (toLowerCase (a ++ b)) ".md" = true := by
  unfold endsWith toLowerCase at *
  rw [List.isSuffixOf_iff_suffix] at *
  simp only [String.data_append, List.map_append]
  exact h.trans (List.suffix_append _ _)

theorem join_ends_with_last (sep : String) (parts : List String) :
    ∀ last, parts.getLast? = some last → ∃ pre, join parts sep = pre ++ last := by
  induction parts with
  | nil =>
    intro last h
    simp at h
  | cons p rest ih =>
    intro last h
    cases rest with
    | nil =>
      simp only [List.getLast?_singleton, Option.some.injEq] at h
      subst h
      exact ⟨"", by simp [join]⟩
    | cons q rest2 =>
      have h2 : (q :: rest2).getLast? = some last := by
        rw [List.getLast?_cons_cons] at h
        exact h
      obtain ⟨pre, hpre⟩ := ih last h2
      exact ⟨p ++ sep ++ pre, by rw [join, hpre, String.append_assoc, String.append_assoc,
        String.append_assoc]⟩

theorem join_drop_ends_md (parts : List String) (n : Nat) (hn : n < parts.length)
    (hmd : mdShape parts = true) :
    endsWith (toLowerCase (join (parts.drop n) "/")) ".md" = true := by
  unfold mdShape at hmd
  cases hl : parts.getLast? with
  | none => simp [hl] at hmd
  | some last =>
    simp only [hl] at hmd
    have hd : (parts.drop n).getLast? = some last := by
      rw [List.getLast?_drop, if_neg (by omega), hl]
    obtain ⟨pre, hpre⟩ := join_ends_with_last "/" (parts.drop n) last hd
    rw [hpre]
    exact endsWith_md_append pre last hmd

theorem githubRawUrl_md_suffix (url : URL) (hmd : mdShape (pathParts url) = true) (raw : String)
    (h : githubRawUrl url = .ret (some raw)) :
    ∃ rest, raw = rawHost ++ rest ∧ endsWith (toLowerCase rest) ".md" = true := by
  have hreadme : endsWith (toLowerCase "/README.md") ".md" = true := by decide
  have hreadme2 : endsWith (toLowerCase "README.md") ".md" = true := by decide
  have hhead : endsWith (toLowerCase "/HEAD/README.md") ".md" = true := by decide
  unfold githubRawUrl at h
  simp only [String.append_assoc] at h
  split_ifs at h with h1 h2 h3 h4 h5
  · cases h
  · cases h
    refine ⟨_, rfl, ?_⟩
    repeat apply endsWith_md_append
    exact hhead
  · cases h
    refine ⟨_, rfl, ?_⟩
    repeat apply endsWith_md_append
    exact join_drop_ends_md (pathParts url) 4 (by omega) hmd
  · cases h
    refine ⟨_, rfl, ?_⟩
    repeat apply endsWith_md_append
    exact hreadme
  · cases h
    refine ⟨_, rfl, ?_⟩
    repeat apply endsWith_md_append
    exact hreadme2
  · rw [← List.getLast?_eq_getElem?] at h
    cases hl : (pathParts url).getLast? with
    | none => simp [hl] at h
    | some last =>
      simp only [hl] at h
      split_ifs at h
      · cases h
        refine ⟨_, rfl, ?_⟩
        repeat apply endsWith_md_append
        exact join_drop_ends_md (pathParts url) 2 (by omega) hmd
      · cases h

/-! ## Normalisation preserves classification -/

/-- C20: for a string that `isMarkdownUrl` accepts, the normalised URL is the string itself
or a rewrite on the raw host whose text, lower-cased, ends in `.md`; and `isMarkdownUrl`
accepts the normalised URL, the parser reading a rewrite as a URL whose path is the text
after the host. -/
theorem toRawMarkdownUrl_preserves_markdown (P : Platform) (href : String)
    (hmd : isMarkdownUrl P href = true) :
    (toRawMarkdownUrl P href = href ∨
      ∃ rest, toRawMarkdownUrl P href = rawHost ++ rest ∧
        endsWith (toLowerCase rest) ".md" = true) ∧
    ((∀ rest, toRawMarkdownUrl P href = rawHost ++ rest →
        ∃ u, P.parseURL (rawHost ++ rest) = some u ∧ u.pathname = "/" ++ rest) →
      isMarkdownUrl P (toRawMarkdownUrl P href) = true) := by
  have hcases : toRawMarkdownUrl P href = href ∨
      ∃ rest, toRawMarkdownUrl P href = rawHost ++ rest ∧
        endsWith (toLowerCase rest) ".md" = true := by
    cases hp : P.parseURL href with
    | none => simp [toRawMarkdownUrl, hp]
    | some url =>
      rw [isMarkdownUrl_parsed P href url hp] at hmd
      have hshape := mdShape_of_pathname url hmd
      by_cases hh : url.hostname = "github.com"
      · cases hg : githubRawUrl url with
        | thrown => simp [toRawMarkdownUrl, hp, hh, hg]
        | ret o =>
          cases o with
          | none => simp [toRawMarkdownUrl, hp, hh, hg]
          | some raw =>
            obtain ⟨rest, hraw, hsuf⟩ := githubRawUrl_md_suffix url hshape raw hg
            right
            refine ⟨rest, ?_, hsuf⟩
            simp [toRawMarkdownUrl, hp, hh, hg, hraw, rawHost_append_ne_empty]
      · simp [toRawMarkdownUrl, hp, hh]
  refine ⟨hcases, fun hparse => ?_⟩
  rcases hcases with h | ⟨rest, h, hsuf⟩
  · rw [h]
    exact hmd
  · obtain ⟨u, hu, hpath⟩ := hparse rest h
    rw [h, isMarkdownUrl_parsed P (rawHost ++ rest) u hu, hpath]
    exact endsWith_md_append "/" rest hsuf

/-- Witness for C20: the blob URL of the specification and its rewrite. -/
theorem toRawMarkdownUrl_preserves_markdown_witness :
    isMarkdownUrl samplePlatform "https://github.com/acme/widgets/blob/main/docs/guide.md"
        = true ∧
      toRawMarkdownUrl samplePlatform "https://github.com/acme/widgets/blob/main/docs/guide.md"
        = "https://raw.githubusercontent.com/acme/widgets/main/docs/guide.md" ∧
      isMarkdownUrl samplePlatform
        (toRawMarkdownUrl samplePlatform "https://github.com/acme/widgets/blob/main/docs/guide.md")
        = true :=
  ⟨by decide, by decide,
    (toRawMarkdownUrl_preserves_markdown samplePlatform
      "https://github.com/acme/widgets/blob/main/docs/guide.md" (by decide)).2
      (by
        intro rest hrest
        have hraw : toRawMarkdownUrl samplePlatform
            "https://github.com/acme/widgets/blob/main/docs/guide.md"
            = rawHost ++ "acme/widgets/main/docs/guide.md" := by decide
        rw [hraw] at hrest
        have hdata := congrArg String.data hrest
        simp only [String.data_append, List.append_cancel_left_eq] at hdata
        have hrest2 : rest = "acme/widgets/main/docs/guide.md" := (String.ext hdata).symm
        subst hrest2
        exact ⟨plainUrl "https" "raw.githubusercontent.com" "/acme/widgets/main/docs/guide.md",
          by decide, by decide⟩)⟩

end MdToPdf
